import Mathlib

/-!
Verification development for the PRV tools repository.

The repository has two Python source files:
  * `csv_to_prv.py` — converts tabular sensor rows into a fixed-width
    "PRV" record format (header line + continuation lines, a bespoke
    exponential formatter `fmt_exp_field`, a positional buffer writer
    `place_into_line`, a per-key message counter, and a layout-schema /
    fallback-span driven line emitter inside `convert`).
  * `compare.py` — a permissive structural checker whose `parse_records`
    groups lines into records via a header-detection heuristic.

This file is a shallow embedding of that code.  Python floats are
idealised as exact rationals extended with `inf`, `-inf` and `nan`
(the spec declares numeric fidelity a non-goal); Python strings are
`String` (lists of code points, matching the Python `len`/indexing);
Python `while` loops are embedded as fuel-indexed recursions, with the
fuel needed for the convergent cases computed explicitly and proved
sufficient, so that genuine divergence of the source loop shows up as
`none` at every fuel.
-/

/-- Python float values: exact rationals plus the three special values.
Arithmetic on the `finite` case is idealised as exact rational
arithmetic (no rounding, no overflow). -/
inductive PyFloat where
  | finite (q : ℚ)
  | inf
  | ninf
  | nan
deriving DecidableEq, Repr

/-- A value handed to `fmt_exp_field`: `None`, a Python string, or an
already-numeric value (the converter passes the int `0` for blank
sensors). -/
inductive PyVal where
  | pNone
  | pStr (s : String)
  | pNum (f : PyFloat)
deriving DecidableEq, Repr

/-- `a >= 10.0` on Python floats (`inf >= 10` is true, `nan >= 10` false). -/
def pyGe10 : PyFloat → Bool
  | .finite q => decide (10 ≤ q)
  | .inf => true
  | .ninf => false
  | .nan => false

/-- `a < 0.1` on Python floats. -/
def pyLt01 : PyFloat → Bool
  | .finite q => decide (q < 1/10)
  | .inf => false
  | .ninf => true
  | .nan => false

/-- `a != 0.0` on Python floats (`nan != 0` is true). -/
def pyNe0 : PyFloat → Bool
  | .finite q => decide (q ≠ 0)
  | _ => true

/-- `a == 0.0` on Python floats. -/
def pyEq0 : PyFloat → Bool
  | .finite q => decide (q = 0)
  | _ => false

/-- `a < 0` on Python floats. -/
def pyLt0 : PyFloat → Bool
  | .finite q => decide (q < 0)
  | .ninf => true
  | _ => false

/-- `a / 10.0` on Python floats. -/
def pyDiv10 : PyFloat → PyFloat
  | .finite q => .finite (q / 10)
  | x => x

/-- `a * 10.0` on Python floats. -/
def pyMul10 : PyFloat → PyFloat
  | .finite q => .finite (q * 10)
  | x => x

/-- `abs(a)` on Python floats. -/
def pyAbs : PyFloat → PyFloat
  | .finite q => .finite |q|
  | .nan => .nan
  | _ => .inf

/-- the Python whitespace test for `str.strip` / `str.split()` (modelled
with the Lean `Char.isWhitespace`, which agrees on ASCII whitespace). -/
def pyWs (c : Char) : Bool := c.isWhitespace

/-- `s.strip()`. -/
def pyStrip (s : String) : String :=
  ⟨((s.data.dropWhile pyWs).reverse.dropWhile pyWs).reverse⟩

/-- `s.rstrip()`. -/
def rstrip (s : String) : String :=
  ⟨(s.data.reverse.dropWhile pyWs).reverse⟩

/-- `s.rjust(w)` (Python: returns `s` unchanged when `len(s) >= w`). -/
def pyRjust (s : String) (w : ℤ) : String :=
  if (s.data.length : ℤ) < w then
    ⟨List.replicate (w - s.data.length).toNat ' ' ++ s.data⟩
  else s

/-- `s.ljust(w)`. -/
def pyLjust (s : String) (w : ℕ) : String :=
  if s.data.length < w then ⟨s.data ++ List.replicate (w - s.data.length) ' '⟩ else s

/-- `s.zfill(w)`: left-pad with `'0'` to width `w`, inserting the pad
after a leading sign; returns `s` unchanged when `len(s) >= w`. -/
def pyZfill (s : String) (w : ℕ) : String :=
  if w ≤ s.data.length then s
  else
    let pad := List.replicate (w - s.data.length) '0'
    match s.data with
    | c :: rest => if c = '+' ∨ c = '-' then ⟨c :: (pad ++ rest)⟩ else ⟨pad ++ c :: rest⟩
    | [] => ⟨pad⟩

/-- Python slice `s[:w]` for an `int` width `w` (negative `w` drops
`|w|` characters from the end). -/
def pySliceTo (s : String) (w : ℤ) : String :=
  if 0 ≤ w then ⟨s.data.take w.toNat⟩
  else ⟨s.data.take (s.data.length - (-w).toNat)⟩

/-- Python slice `s[-w:]` for an `int` `w`.  Note the quirk at `w = 0`:
`-0 == 0`, so `s[-0:]` is the whole string; and for negative `w` the
index `-w` is positive, so `s[-w:]` drops the first `|w|` characters. -/
def pySliceLast (s : String) (w : ℤ) : String :=
  if 0 < w then
    (if w < (s.data.length : ℤ) then ⟨s.data.drop (s.data.length - w.toNat)⟩ else s)
  else ⟨s.data.drop (-w).toNat⟩

/-- Round a rational to the nearest integer, ties to even — the rounding
used by the Python fixed-point formatting `f"{a:.5f}"` (idealised to act
on the exact rational value). -/
def rhe (q : ℚ) : ℤ :=
  let f := ⌊q⌋
  let r := q - f
  if r < 1/2 then f
  else if 1/2 < r then f + 1
  else if f % 2 = 0 then f else f + 1

/-- Render a natural number `m` (the value scaled by `10^5`) as a
fixed-point numeral with five digits after the point. -/
def natDot5 (m : ℕ) : String :=
  Nat.repr (m / 100000) ++ "." ++ pyZfill (Nat.repr (m % 100000)) 5

/-- `f"{a:.5f}"` on a Python float (idealised exact rounding; the
special values render as Python prints them). -/
def fmtDot5 : PyFloat → String
  | .nan => "nan"
  | .inf => "inf"
  | .ninf => "-inf"
  | .finite q =>
    let n := rhe (q * 100000)
    if n < 0 then "-" ++ natDot5 n.natAbs else natDot5 n.toNat

/-- The final width handling of `fmt_exp_field`:
`if len(rep) > width: rep = rep[-width:]` then `return rep.rjust(width)`. -/
def fmtWidth (rep : String) (width : ℤ) : String :=
  let rep2 := if width < (rep.data.length : ℤ) then pySliceLast rep width else rep
  pyRjust rep2 width

/-- The `while a >= 10.0: a /= 10.0; exp += 1` loop of `fmt_exp_field`,
with fuel bounding the number of iterations (`none` = fuel exhausted
while the guard still holds). -/
def divSteps : ℕ → PyFloat → ℤ → Option (PyFloat × ℤ)
  | 0, a, e => if pyGe10 a then none else some (a, e)
  | n + 1, a, e => if pyGe10 a then divSteps n (pyDiv10 a) (e + 1) else some (a, e)

/-- The `while a < 0.1 and a != 0.0: a *= 10.0; exp -= 1` loop of
`fmt_exp_field`, fuel-indexed like `divSteps`. -/
def mulSteps : ℕ → PyFloat → ℤ → Option (PyFloat × ℤ)
  | 0, a, e => if pyLt01 a && pyNe0 a then none else some (a, e)
  | n + 1, a, e => if pyLt01 a && pyNe0 a then mulSteps n (pyMul10 a) (e - 1) else some (a, e)

/-- Value of a list of decimal digit characters. -/
def digitsVal (l : List Char) : ℕ :=
  l.foldl (fun acc c => 10 * acc + (c.toNat - '0'.toNat)) 0

/-- Split a character list at the first occurrence of `'e'`/`'E'`. -/
def splitExp : List Char → (List Char × Option (List Char))
  | [] => ([], none)
  | c :: cs =>
    if c = 'e' ∨ c = 'E' then ([], some cs)
    else
      let r := splitExp cs
      (c :: r.1, r.2)

/-- Parse an optional sign followed by a nonempty digit string (the
exponent part of a float literal). -/
def parseExpPart (l : List Char) : Option ℤ :=
  let (sgn, rest) :=
    match l with
    | '+' :: t => ((1 : ℤ), t)
    | '-' :: t => ((-1 : ℤ), t)
    | t => ((1 : ℤ), t)
  if rest ≠ [] ∧ rest.all Char.isDigit then some (sgn * digitsVal rest) else none

/-- Parse the mantissa part of a float literal: digits with at most one
`'.'`, at least one digit overall.  Returns the value as a rational. -/
def parseMantPart (l : List Char) : Option ℚ :=
  let intPart := l.takeWhile Char.isDigit
  let rest := l.drop intPart.length
  match rest with
  | [] => if intPart ≠ [] then some (digitsVal intPart : ℚ) else none
  | '.' :: fracPart =>
    if fracPart.all Char.isDigit ∧ (intPart ≠ [] ∨ fracPart ≠ []) then
      some ((digitsVal intPart * 10 ^ fracPart.length + digitsVal fracPart : ℚ)
        / (10 : ℚ) ^ fracPart.length)
    else none
  | _ => none

/-- Scale a rational by `10^e` for an integer `e`. -/
def scale10 (q : ℚ) (e : ℤ) : ℚ :=
  if 0 ≤ e then q * 10 ^ e.toNat else q / 10 ^ (-e).toNat

/-- Model of the Python `float(s)` on a string: optional surrounding
whitespace and sign, then `inf`/`infinity`/`nan` (case-insensitive) or
a decimal literal with optional fraction and exponent.  `none` models
the `ValueError` raised on anything else.  Idealisations: the numeric
value is kept exact (no rounding, no overflow to `inf`), and digit-group
underscores are not modelled. -/
def pyParseFloat (s : String) : Option PyFloat :=
  let l := (pyStrip s).data
  let (neg, body) :=
    match l with
    | '+' :: t => (false, t)
    | '-' :: t => (true, t)
    | t => (false, t)
  let low := body.map Char.toLower
  if low = "inf".data ∨ low = "infinity".data then
    some (if neg then .ninf else .inf)
  else if low = "nan".data then some .nan
  else
    let (mantL, expL) := splitExp body
    match parseMantPart mantL with
    | none => none
    | some m =>
      match expL with
      | none => some (.finite (if neg then -m else m))
      | some el =>
        match parseExpPart el with
        | none => none
        | some e =>
          let v := scale10 m e
          some (.finite (if neg then -v else v))

/-- The mantissa-extraction prologue of `fmt_exp_field`:
`if val is None or str(val).strip() == '': mant = 0.0
 else: mant = float(val)` with the surrounding `try/except → 0.0`. -/
def toMant : PyVal → PyFloat
  | .pNone => .finite 0
  | .pNum f => f
  | .pStr s => if pyStrip s = "" then .finite 0 else (pyParseFloat s).getD (.finite 0)

/-- Body of `fmt_exp_field` at a given loop fuel.  `none` means the
normalisation loops did not finish within `fuel` iterations. -/
def fmt_exp_fieldFuel (fuel : ℕ) (val : PyVal) (width : ℤ) : Option String :=
  let mant := toMant val
  if pyEq0 mant then some (fmtWidth ".00000E+0" width)
  else
    let sign := if pyLt0 mant then "-" else ""
    match divSteps fuel (pyAbs mant) 0 with
    | none => none
    | some (a1, e1) =>
      match mulSteps fuel a1 e1 with
      | none => none
      | some (a2, e2) =>
        let m1 := fmtDot5 a2
        let m2 := match m1.data with
          | '0' :: rest => (⟨rest⟩ : String)
          | _ => m1
        let expSign := if 0 ≤ e2 then "+" else "-"
        some (fmtWidth (sign ++ m2 ++ "E" ++ expSign ++ Nat.repr e2.natAbs) width)

/-- Fuel sufficient for both normalisation loops on a finite value
(proved sufficient below); the special values get fuel `0`, which is
irrelevant for `nan` (the guards fail at once) and immaterial for
`±inf` (no fuel terminates the loop there). -/
def pyFuel : PyFloat → ℕ
  | .finite q => (⌈|q|⌉).toNat + (⌈|q|⁻¹⌉).toNat + 1
  | _ => 0

/-- `fmt_exp_field(val, width)` from `csv_to_prv.py`, run with the
computed fuel.  `none` occurs exactly when the source function fails to
terminate (value `±inf`). -/
def fmt_exp_field (val : PyVal) (width : ℤ) : Option String :=
  fmt_exp_fieldFuel (pyFuel (toMant val)) val width

/-- Non-termination of the formatter at a value: no iteration budget
makes the normalisation loops finish. -/
def fmtDiverges (val : PyVal) (width : ℤ) : Prop :=
  ∀ n : ℕ, fmt_exp_fieldFuel n val width = none

/-- Accumulator-based whitespace tokeniser: `wsTokensGo cur l` is the
token list of `cur.reverse ++ l` where `cur` is the (reversed) token in
progress. -/
def wsTokensGo (cur : List Char) : List Char → List (List Char)
  | [] => if cur = [] then [] else [cur.reverse]
  | c :: cs =>
    if pyWs c then
      if cur = [] then wsTokensGo [] cs else cur.reverse :: wsTokensGo [] cs
    else wsTokensGo (c :: cur) cs

/-- the Python no-argument `s.split()`: split on whitespace runs,
discarding empty tokens. -/
def pySplitWs (s : String) : List String :=
  (wsTokensGo [] s.data).map fun l => (⟨l⟩ : String)

/-- Accumulator for `pySplitOn`. -/
def splitOnGo (sep : Char) (cur : List Char) : List Char → List (List Char)
  | [] => [cur.reverse]
  | c :: cs => if c = sep then cur.reverse :: splitOnGo sep [] cs else splitOnGo sep (c :: cur) cs

/-- the Python `s.split(sep)` for a one-character separator: keeps empty
pieces (`"a::b".split(':') == ['a','','b']`, `"".split(':') == ['']`). -/
def pySplitOn (s : String) (sep : Char) : List String :=
  (splitOnGo sep [] s.data).map fun l => (⟨l⟩ : String)

/-- Number of sensor channels (`SENSOR_COUNT = 22`). -/
def SENSOR_COUNT : ℕ := 22

/-- One CSV row, restricted to the fields `convert` reads.  String
fields model `row.get(key, '')` (the `''` default already applied);
`compression` and the sensor cells keep the Python `None` as `none`
(`csv.DictReader` yields `None` for columns missing from a short row),
since `convert` tests those against `(None, '')`. -/
structure Row where
  program : String
  ptt : String
  satellite : String
  msgdate : String
  compression : Option String
  sensorVal : ℕ → Option String

/-- `sensors = [row.get(str(i), '') for i in range(1, SENSOR_COUNT + 1)]`. -/
def sensorsOf (r : Row) : List (Option String) :=
  (List.range' 1 SENSOR_COUNT).map r.sensorVal

/-- The layout schema as `convert` consumes it: `line_length`
(`layout.get("line_length", 78)`) and the per-line span lists
(`[l["common_spans"] for l in layout.get("lines", [])]`).  The unused
`most_common_cont_lines` key is not modelled.  Spans are `int` pairs. -/
structure Layout where
  lineLength : ℕ
  lines : List (List (ℤ × ℤ))

/-- `row.get('Compression index', '') or '1'` (Python truthiness: both
`None` and `''` fall back to `'1'`). -/
def resolveComp : Option String → String
  | none => "1"
  | some s => if s = "" then "1" else s

/-- The key of a row in the per-run counter:
`(row.get('Program','').strip(), row.get('PTT','').strip())`. -/
def rowKey (r : Row) : String × String := (pyStrip r.program, pyStrip r.ptt)

/-- The per-key message counter: `groups = defaultdict(int)` together
with `groups[key] += 1; msg_index = groups[key]` applied to each row in
order.  Returns the message index assigned to each row. -/
def msgIndicesGo (g : String × String → ℕ) : List Row → List ℕ
  | [] => []
  | r :: rs =>
    let k := rowKey r
    let n := g k + 1
    n :: msgIndicesGo (fun k2 => if k2 = k then n else g k2) rs

/-- Message indices for a whole conversion run (counter starts empty). -/
def msgIndices (rows : List Row) : List ℕ := msgIndicesGo (fun _ => 0) rows

/-- The header line of `convert`:
`f"{program} {ptt}  {msg_idx_s} {sensor_cnt} {sat}"` with
`program = str(...).zfill(5)`, `ptt = str(...).zfill(6)`,
`msg_idx_s = str(msg_index).rjust(3)`, `sensor_cnt = str(22).rjust(2)`,
`sat = str(...).strip().ljust(1)`. -/
def headerLine (r : Row) (msgIndex : ℕ) : String :=
  pyZfill r.program 5 ++ " " ++ pyZfill r.ptt 6 ++ "  " ++
    pyRjust (Nat.repr msgIndex) 3 ++ " " ++ pyRjust (Nat.repr SENSOR_COUNT) 2 ++ " " ++
    pyLjust (pyStrip r.satellite) 1

/-- The timestamp block of `convert`: starting from the fallback pair
`("0000-00-00", "00:00:00")`, if the field is nonempty split it on
whitespace into exactly date and time, the date on `'/'` into exactly
day/month/year; any failed destructuring raises inside the `try` and
leaves the fallbacks (the time part cannot raise). -/
def parseTimestamp (msgdate : String) : String × String :=
  if msgdate = "" then ("0000-00-00", "00:00:00")
  else
    match pySplitWs msgdate with
    | [datepart, timepart] =>
      match pySplitOn datepart '/' with
      | [d, m, y] =>
        let dtDate := pyZfill y 4 ++ "-" ++ pyZfill m 2 ++ "-" ++ pyZfill d 2
        let hhmm := pySplitOn timepart ':'
        let dtTime :=
          match hhmm with
          | [hh, mm] => pyZfill hh 2 ++ ":" ++ pyZfill mm 2 ++ ":00"
          | _ => String.intercalate ":" (hhmm.map (pyZfill · 2))
        (dtDate, dtTime)
      | _ => ("0000-00-00", "00:00:00")
    | _ => ("0000-00-00", "00:00:00")

/-- Python list item assignment `buf[idx] = c` with `int` index:
negative indices count from the end; an index out of range after that
adjustment raises `IndexError`, modelled as `none`. -/
def pySetItem (buf : List Char) (idx : ℤ) (c : Char) : Option (List Char) :=
  let j := if idx < 0 then idx + buf.length else idx
  if 0 ≤ j ∧ j < (buf.length : ℤ) then some (buf.set j.toNat c) else none

/-- The write loop of `place_into_line`:
`for i, ch in enumerate(s): buf[start - 1 + i] = ch`. -/
def writeChars (buf : List Char) (pos : ℤ) : List Char → Option (List Char)
  | [] => some buf
  | c :: cs =>
    match pySetItem buf pos c with
    | none => none
    | some b2 => writeChars b2 (pos + 1) cs

/-- `place_into_line(buf, span, text)` from `csv_to_prv.py`: truncate
`text` to the first `width = end - start + 1` characters when longer,
right-justify to `width`, and write the characters into the buffer from
1-based position `start`.  `none` models an `IndexError` escape. -/
def place_into_line (buf : List Char) (span : ℤ × ℤ) (text : String) : Option (List Char) :=
  let width := span.2 - span.1 + 1
  let s := if width < (text.data.length : ℤ) then pySliceTo text width else text
  let s2 := pyRjust s width
  writeChars buf (span.1 - 1) s2.data

/-- The sensor value actually formatted:
`v = sensors[idx]; if v in (None, ''): v = 0` (the int `0`). -/
def effPyVal : Option String → PyVal
  | none => .pNum (.finite 0)
  | some s => if s = "" then .pNum (.finite 0) else .pStr s

/-- A sensor cell whose formatting terminates: its effective value does
not convert to `±inf` (every `None`, blank, unparseable, `nan` or
finite cell qualifies). -/
def sensorOk (v : Option String) : Prop :=
  toMant (effPyVal v) ≠ PyFloat.inf ∧ toMant (effPyVal v) ≠ PyFloat.ninf

instance (v : Option String) : Decidable (sensorOk v) := by
  unfold sensorOk; infer_instance

/-- The span-filling `for span in spans` loop shared by the schema and
fallback phases of `convert`: for each span, while sensors remain,
format `sensors[i]` to the span width and place it; stop at the first
exhausted sensor (`break`).  Returns the buffer and the new sensor
index; `none` propagates a formatter non-termination or an
`IndexError` from `place_into_line`. -/
def fillSpans (sensors : List (Option String)) :
    List (ℤ × ℤ) → List Char → ℕ → Option (List Char × ℕ)
  | [], buf, i => some (buf, i)
  | sp :: rest, buf, i =>
    if i < sensors.length then
      let w := sp.2 - sp.1 + 1
      match fmt_exp_field (effPyVal (sensors.getD i none)) w with
      | none => none
      | some txt =>
        match place_into_line buf sp txt with
        | none => none
        | some b2 => fillSpans sensors rest b2 (i + 1)
    else some (buf, i)

/-- The schema-driven `while sens_idx < len(sensors) and li < len(line_spans)`
loop of `convert`, recursing over the remaining schema lines (`first`
tracks `li == 0`).  On the first line the date, time and (already
resolved) compression index are stamped at spans `(7,16)`, `(18,25)`,
`(28,28)` before sensors are placed.  Emits each line joined and
right-stripped. -/
def schemaPhase (L : ℕ) (dtDate dtTime comp : String) (sensors : List (Option String)) :
    List (List (ℤ × ℤ)) → Bool → ℕ → Option (List String × ℕ)
  | [], _, i => some ([], i)
  | spans :: rest, first, i =>
    if i < sensors.length then do
      let buf0 := List.replicate L ' '
      let buf1 ←
        if first then do
          let a ← place_into_line buf0 (7, 16) dtDate
          let b ← place_into_line a (18, 25) dtTime
          place_into_line b (28, 28) comp
        else pure buf0
      let (buf2, i2) ← fillSpans sensors spans buf1 i
      let (ls, iF) ← schemaPhase L dtDate dtTime comp sensors rest false i2
      pure (rstrip (⟨buf2⟩ : String) :: ls, iF)
    else some ([], i)

/-- The hard-coded fallback spans of `convert`. -/
def fallback_spans : List (ℤ × ℤ) := [(7, 16), (18, 25), (28, 36), (37, 45), (46, 54), (55, 63)]

/-- The fallback `while sens_idx < len(sensors)` loop of `convert`:
fresh buffer per iteration, fill the six fallback spans, emit the
stripped line.  Fuel-indexed; since every iteration with remaining
sensors consumes at least one sensor, fuel `len(sensors)` is enough
(proved below), so `none` under that fuel never happens. -/
def fallbackPhase (L : ℕ) (sensors : List (Option String)) :
    ℕ → ℕ → Option (List String × ℕ)
  | fuel, i =>
    if i < sensors.length then
      match fuel with
      | 0 => none
      | f + 1 => do
        let buf0 := List.replicate L ' '
        let (buf1, i1) ← fillSpans sensors fallback_spans buf0 i
        let (ls, iF) ← fallbackPhase L sensors f i1
        pure (rstrip (⟨buf1⟩ : String) :: ls, iF)
    else some ([], i)

/-- Continuation-line emission for one row (lines 123–160 of
`csv_to_prv.py`): the schema phase over the layout lines, then the
fallback phase, threading `sens_idx` from `0`.  Returns the emitted
lines and the final sensor index. -/
def encodeBody (lay : Layout) (dtDate dtTime comp : String)
    (sensors : List (Option String)) : Option (List String × ℕ) := do
  let (ls1, i1) ← schemaPhase lay.lineLength dtDate dtTime comp sensors lay.lines true 0
  let (ls2, i2) ← fallbackPhase lay.lineLength sensors sensors.length i1
  pure (ls1 ++ ls2, i2)

/-- Total span count of a layout schema lines. -/
def totalSpans (lines : List (List (ℤ × ℤ))) : ℕ := (lines.map List.length).sum

/-- Full record for one row: header line followed by the continuation
lines, with the timestamp parsed and the compression index resolved as
in `convert`. -/
def encodeRow (lay : Layout) (msgIndex : ℕ) (r : Row) : Option (List String) := do
  let dt := parseTimestamp r.msgdate
  let (ls, _) ← encodeBody lay dt.1 dt.2 (resolveComp r.compression) (sensorsOf r)
  pure (headerLine r msgIndex :: ls)

/-- The header-detection condition of `parse_records` in `compare.py`:
`line and line[0].isdigit() and ' ' in line and line.split()[0].isdigit()
and len(line.split()[0]) >= 5`, with the Python short-circuit order (so
`split()[0]` is only reached when the line starts with a digit and is
therefore guaranteed a first token).  `str.isdigit` is modelled on
ASCII digits; on an empty token it is `False`. -/
def isHeaderLine (line : String) : Bool :=
  if line.data = [] then false
  else if !(line.data.headD ' ').isDigit then false
  else if !line.data.contains ' ' then false
  else
    let t := (pySplitWs line).headD ""
    (decide (t ≠ "") && t.data.all Char.isDigit) && decide (5 ≤ t.data.length)

/-- The record-grouping loop of `parse_records`, over the file lines
(already stripped of their trailing newline): blank lines are skipped,
a header line flushes the current record and starts a new one, any
other line is appended to the current record; a final nonempty record
is flushed at end of input.  (The `if cur is None` branch of the source
is dead — `cur` starts as `[]` and is never `None` — and is omitted.) -/
def parseRecordsGo (cur : List String) : List String → List (List String)
  | [] => if cur = [] then [] else [cur]
  | l :: rest =>
    if l = "" then parseRecordsGo cur rest
    else if isHeaderLine l then
      if cur = [] then parseRecordsGo [l] rest else cur :: parseRecordsGo [l] rest
    else parseRecordsGo (cur ++ [l]) rest

/-- `parse_records` from `compare.py`, on a list of lines. -/
def parse_records (ls : List String) : List (List String) := parseRecordsGo [] ls

/-- The first whitespace-delimited token of a line, as the claim about
`parse_records` phrases it (computed directly, independently of the
tokeniser used in `isHeaderLine`). -/
def firstWsTok (l : String) : List Char :=
  (l.data.dropWhile pyWs).takeWhile fun c => !pyWs c

/-- The spec wording of the header condition: the first
whitespace-delimited token consists entirely of digits and is at least
5 characters long. -/
def specHeaderCond (l : String) : Prop :=
  firstWsTok l ≠ [] ∧ (firstWsTok l).all Char.isDigit = true ∧ 5 ≤ (firstWsTok l).length

/-- The input row of the end-to-end scenario claim: sensor 1 is
`"3.14"` and sensors 2–22 are `"0"`. -/
def rowC1 : Row :=
  ⟨"123", "45", "A", "01/02/2020 13:05", some "2",
    fun i => if i = 1 then some "3.14" else some "0"⟩

/-- The empty/default layout (no `lines`, default `line_length = 78`). -/
def lay0 : Layout := ⟨78, []⟩

/-- A row with every consumed field missing/blank (sensor cells are the
Python `None` a short CSV row produces). -/
def rowE : Row := ⟨"", "", "", "", none, fun _ => none⟩

/-- A layout with one schema line holding a single span. -/
def lay1 : Layout := ⟨78, [[(30, 39)]]⟩

/-- A layout whose only span overruns the default 78-character line. -/
def layBad : Layout := ⟨78, [[(100, 105)]]⟩

theorem data_mk (l : List Char) : (⟨l⟩ : String).data = l := rfl

theorem pyRjust_length (s : String) (w : ℤ) :
    (pyRjust s w).data.length = max s.data.length w.toNat := by
  unfold pyRjust
  split
  · simp only [data_mk, List.length_append, List.length_replicate]
    omega
  · omega

theorem pySliceLast_length (s : String) (w : ℤ) (h0 : 0 < w)
    (hlt : w < (s.data.length : ℤ)) : (pySliceLast s w).data.length = w.toNat := by
  unfold pySliceLast
  rw [if_pos h0, if_pos hlt]
  simp only [data_mk, List.length_drop]
  omega

theorem fmtWidth_length (rep : String) (w : ℤ) (h : 1 ≤ w) :
    (fmtWidth rep w).data.length = w.toNat := by
  unfold fmtWidth
  split
  · next hlt =>
    rw [pyRjust_length, pySliceLast_length rep w (by omega) hlt]
    omega
  · next hge =>
    rw [pyRjust_length]
    omega

theorem fmt_fuel_shape (fuel : ℕ) (val : PyVal) (w : ℤ) (r : String)
    (h : fmt_exp_fieldFuel fuel val w = some r) : ∃ rep, r = fmtWidth rep w := by
  unfold fmt_exp_fieldFuel at h
  by_cases h0 : pyEq0 (toMant val)
  · rw [if_pos h0] at h
    exact ⟨".00000E+0", (Option.some_inj.mp h).symm⟩
  · rw [if_neg h0] at h
    rcases hdiv : divSteps fuel (pyAbs (toMant val)) 0 with _ | ⟨a1, e1⟩
    · simp only [hdiv] at h
      exact Option.noConfusion h
    · simp only [hdiv] at h
      rcases hmul : mulSteps fuel a1 e1 with _ | ⟨a2, e2⟩
      · simp only [hmul] at h
        exact Option.noConfusion h
      · simp only [hmul, Option.some.injEq] at h
        exact ⟨_, h.symm⟩

/-- C4: for every value and loop fuel on which the formatter returns a
result and every width `w ≥ 1`, the returned token has length exactly
`w` (over-long tokens are cut, short ones are left-padded with
spaces). -/
theorem fmt_exp_field_width_exact (fuel : ℕ) (val : PyVal) (w : ℤ) (r : String)
    (hw : 1 ≤ w) (h : fmt_exp_fieldFuel fuel val w = some r) :
    (r.data.length : ℤ) = w := by
  obtain ⟨rep, rfl⟩ := fmt_fuel_shape fuel val w r h
  rw [fmtWidth_length rep w hw]
  omega

/-- Witness for C4 at the concrete call `fmt_exp_field("3.14", 4)`,
whose result is the truncated token `0E+0`. -/
theorem fmt_exp_field_width_exact_witness : (("0E+0" : String).data.length : ℤ) = 4 :=
  fmt_exp_field_width_exact 0 (.pStr "3.14") 4 "0E+0" (by norm_num)
    (by with_unfolding_all decide)

theorem fmt_zero_eq (w : ℤ) :
    fmt_exp_field (.pNum (.finite 0)) w = some (fmtWidth ".00000E+0" w) := by
  have h0 : pyEq0 (toMant (PyVal.pNum (PyFloat.finite 0))) = true := by
    with_unfolding_all decide
  unfold fmt_exp_field fmt_exp_fieldFuel
  rw [if_pos h0]

theorem fmtWidth_of_ge (rep : String) (w : ℤ) (h : (rep.data.length : ℤ) ≤ w) :
    fmtWidth rep w = ⟨List.replicate (w - rep.data.length).toNat ' ' ++ rep.data⟩ := by
  unfold fmtWidth
  rw [if_neg (by omega)]
  unfold pyRjust
  by_cases h2 : (rep.data.length : ℤ) < w
  · rw [if_pos h2]
  · rw [if_neg h2]
    have h3 : (w - rep.data.length).toNat = 0 := by omega
    rw [h3, List.replicate_zero, List.nil_append]

theorem fmtWidth_of_lt (rep : String) (w : ℤ) (h1 : 1 ≤ w)
    (h2 : w < (rep.data.length : ℤ)) :
    fmtWidth rep w = ⟨rep.data.drop (rep.data.length - w.toNat)⟩ := by
  unfold fmtWidth
  rw [if_pos h2]
  unfold pySliceLast
  rw [if_pos (by omega), if_pos h2]
  unfold pyRjust
  rw [if_neg (by simp only [data_mk, List.length_drop]; omega)]

theorem dot9_length : (".00000E+0" : String).data.length = 9 := by decide

/-- C5 (amended): `format(0, w)` is the literal `.00000E+0`
right-justified to `w` for `w ≥ 9`, and its length-`w` suffix for
`1 ≤ w < 9`.  (At `w = 0` the Python `rep[-0:]` returns the whole
literal, so the claim fails there; see the counterexample.) -/
theorem fmt_exp_field_zero (w : ℤ) :
    (9 ≤ w → fmt_exp_field (.pNum (.finite 0)) w =
      some ⟨List.replicate (w - 9).toNat ' ' ++ (".00000E+0" : String).data⟩) ∧
    (1 ≤ w → w < 9 → fmt_exp_field (.pNum (.finite 0)) w =
      some ⟨(".00000E+0" : String).data.drop (9 - w.toNat)⟩) := by
  constructor
  · intro h9
    rw [fmt_zero_eq, fmtWidth_of_ge _ _ (by rw [dot9_length]; omega)]
    rw [dot9_length]
    norm_num
  · intro h1 h9
    rw [fmt_zero_eq, fmtWidth_of_lt _ _ h1 (by rw [dot9_length]; omega)]
    rw [dot9_length]

/-- Witness for C5 at widths 10 and 5:
`format(0,10) = " .00000E+0"` and `format(0,5) = "00E+0"`. -/
theorem fmt_exp_field_zero_witness :
    fmt_exp_field (.pNum (.finite 0)) 10 =
      some ⟨List.replicate ((10 : ℤ) - 9).toNat ' ' ++ (".00000E+0" : String).data⟩ ∧
    fmt_exp_field (.pNum (.finite 0)) 5 =
      some ⟨(".00000E+0" : String).data.drop (9 - (5 : ℤ).toNat)⟩ :=
  ⟨(fmt_exp_field_zero 10).1 (by norm_num),
   (fmt_exp_field_zero 5).2 (by norm_num) (by norm_num)⟩

/-- C5 counterexample: at width `0` the claim reads "the suffix
consisting of the last `0` characters" (the empty string), but the
code `rep[-0:]` slice keeps the whole 9-character literal. -/
theorem fmt_exp_field_zero_width0 :
    fmt_exp_field (.pNum (.finite 0)) 0 = some ".00000E+0" ∧
    (".00000E+0" : String) ≠ "" := by
  constructor
  · with_unfolding_all decide
  · decide

theorem divSteps_inf : ∀ (n : ℕ) (e : ℤ), divSteps n .inf e = none := by
  intro n
  induction n with
  | zero => intro e; rfl
  | succ n ih =>
    intro e
    show divSteps n (pyDiv10 .inf) (e + 1) = none
    exact ih (e + 1)

theorem divSteps_stay (a : PyFloat) (e : ℤ) (h : pyGe10 a = false) :
    ∀ n, divSteps n a e = some (a, e) := by
  intro n
  cases n <;> simp [divSteps, h]

theorem mulSteps_stay (a : PyFloat) (e : ℤ) (h : (pyLt01 a && pyNe0 a) = false) :
    ∀ n, mulSteps n a e = some (a, e) := by
  intro n
  cases n <;> simp only [mulSteps, h, Bool.false_eq_true, if_false]

theorem divSteps_ok : ∀ (k : ℕ) (q : ℚ) (e : ℤ), 0 < q → (⌈q⌉).toNat ≤ k →
    ∃ q1 e1, divSteps k (.finite q) e = some (.finite q1, e1) ∧ 0 < q1 ∧
      (q1 = q ∨ 1 ≤ q1) := by
  intro k
  induction k using Nat.strong_induction_on with
  | _ k ih =>
    intro q e hq hk
    by_cases hge : (10 : ℚ) ≤ q
    · have hc10 : (10 : ℤ) ≤ ⌈q⌉ := by
        have h1 : ((10 : ℤ) : ℚ) ≤ q := by exact_mod_cast hge
        calc (10 : ℤ) = ⌈((10 : ℤ) : ℚ)⌉ := by rw [Int.ceil_intCast]
        _ ≤ ⌈q⌉ := Int.ceil_mono h1
      obtain ⟨k0, rfl⟩ : ∃ k0, k = k0 + 1 := ⟨k - 1, by omega⟩
      have hgd : pyGe10 (.finite q) = true := by
        simp only [pyGe10, decide_eq_true_eq]; exact hge
      have hstep : divSteps (k0 + 1) (.finite q) e =
          divSteps k0 (.finite (q / 10)) (e + 1) := by
        simp only [divSteps, hgd, if_true, pyDiv10]
      have hbound : (⌈q / 10⌉).toNat ≤ k0 := by
        have h1 : q / 10 ≤ q - 9 := by linarith
        have h2 : ⌈q / 10⌉ ≤ ⌈q - 9⌉ := Int.ceil_mono h1
        have h3 : ⌈q - 9⌉ = ⌈q⌉ - 9 := by
          rw [show (9 : ℚ) = ((9 : ℤ) : ℚ) by norm_num, Int.ceil_sub_int]
        omega
      obtain ⟨q1, e1, heq, hpos, hcase⟩ :=
        ih k0 (by omega) (q / 10) (e + 1) (by positivity) hbound
      refine ⟨q1, e1, by rw [hstep]; exact heq, hpos, Or.inr ?_⟩
      rcases hcase with h | h
      · rw [h]; linarith
      · exact h
    · have hgd : pyGe10 (.finite q) = false := by
        simp only [pyGe10, decide_eq_false_iff_not]; exact hge
      exact ⟨q, e, divSteps_stay _ _ hgd k, hq, Or.inl rfl⟩

theorem mulSteps_ok : ∀ (k : ℕ) (q : ℚ) (e : ℤ), 0 < q → (⌈q⁻¹⌉).toNat ≤ k →
    ∃ q2 e2, mulSteps k (.finite q) e = some (q2, e2) := by
  intro k
  induction k using Nat.strong_induction_on with
  | _ k ih =>
    intro q e hq hk
    by_cases hlt : q < 1/10
    · have h10 : (10 : ℚ) < q⁻¹ := by
        have h1 : q * q⁻¹ = 1 := mul_inv_cancel₀ (ne_of_gt hq)
        have h2 : 0 < q⁻¹ := inv_pos.mpr hq
        nlinarith
      have hc10 : (10 : ℤ) ≤ ⌈q⁻¹⌉ := by
        have h1 : ((10 : ℤ) : ℚ) ≤ q⁻¹ := by push_cast; linarith
        calc (10 : ℤ) = ⌈((10 : ℤ) : ℚ)⌉ := by rw [Int.ceil_intCast]
        _ ≤ ⌈q⁻¹⌉ := Int.ceil_mono h1
      obtain ⟨k0, rfl⟩ : ∃ k0, k = k0 + 1 := ⟨k - 1, by omega⟩
      have hgd : (pyLt01 (.finite q) && pyNe0 (.finite q)) = true := by
        simp only [pyLt01, pyNe0, Bool.and_eq_true, decide_eq_true_eq]
        exact ⟨hlt, ne_of_gt hq⟩
      have hstep : mulSteps (k0 + 1) (.finite q) e =
          mulSteps k0 (.finite (q * 10)) (e - 1) := by
        simp only [mulSteps, hgd, if_true, pyMul10]
      have hbound : (⌈(q * 10)⁻¹⌉).toNat ≤ k0 := by
        have hiq : (q * 10)⁻¹ = q⁻¹ / 10 := by
          rw [mul_inv]
          ring
        have h1 : q⁻¹ / 10 ≤ q⁻¹ - 9 := by linarith
        have h2 : ⌈(q * 10)⁻¹⌉ ≤ ⌈q⁻¹ - 9⌉ := by rw [hiq]; exact Int.ceil_mono h1
        have h3 : ⌈q⁻¹ - 9⌉ = ⌈q⁻¹⌉ - 9 := by
          rw [show (9 : ℚ) = ((9 : ℤ) : ℚ) by norm_num, Int.ceil_sub_int]
        omega
      obtain ⟨q2, e2, heq⟩ := ih k0 (by omega) (q * 10) (e - 1) (by positivity) hbound
      exact ⟨q2, e2, by rw [hstep]; exact heq⟩
    · have hgd : (pyLt01 (.finite q) && pyNe0 (.finite q)) = false := by
        simp only [pyLt01, Bool.and_eq_false_iff, decide_eq_false_iff_not]
        exact Or.inl hlt
      exact ⟨.finite q, e, mulSteps_stay _ _ hgd k⟩

theorem ceil_abs_le_fuel (q : ℚ) : (⌈|q|⌉).toNat ≤ pyFuel (.finite q) := by
  show (⌈|q|⌉).toNat ≤ (⌈|q|⌉).toNat + (⌈|q|⁻¹⌉).toNat + 1
  omega

theorem ceil_abs_inv_le_fuel (q : ℚ) : (⌈|q|⁻¹⌉).toNat ≤ pyFuel (.finite q) := by
  show (⌈|q|⁻¹⌉).toNat ≤ (⌈|q|⌉).toNat + (⌈|q|⁻¹⌉).toNat + 1
  omega

/-- The formatter terminates and returns a token whenever the converted
value is not `±inf`. -/
theorem fmt_terminates (val : PyVal) (w : ℤ)
    (h1 : toMant val ≠ PyFloat.inf) (h2 : toMant val ≠ PyFloat.ninf) :
    ∃ r, fmt_exp_field val w = some r := by
  unfold fmt_exp_field fmt_exp_fieldFuel
  rcases hm : toMant val with q | _ | _ | _
  · by_cases hq0 : q = 0
    · subst hq0
      have h0 : pyEq0 (PyFloat.finite 0) = true := by simp [pyEq0]
      simp only [h0, if_true]
      exact ⟨_, rfl⟩
    · have h0 : pyEq0 (PyFloat.finite q) = false := by simp [pyEq0, hq0]
      have habs : 0 < |q| := abs_pos.mpr hq0
      obtain ⟨q1, e1, hdiv, hq1, hcase⟩ :=
        divSteps_ok (pyFuel (.finite q)) |q| 0 habs (ceil_abs_le_fuel q)
      have hmul : ∃ q2 e2,
          mulSteps (pyFuel (.finite q)) (.finite q1) e1 = some (q2, e2) := by
        rcases hcase with hcase | hcase
        · subst hcase
          exact mulSteps_ok _ _ _ hq1 (ceil_abs_inv_le_fuel q)
        · refine ⟨_, _, mulSteps_stay _ _ ?_ _⟩
          simp only [pyLt01, Bool.and_eq_false_iff, decide_eq_false_iff_not]
          exact Or.inl (by linarith)
      obtain ⟨q2, e2, hmul⟩ := hmul
      simp only [h0, Bool.false_eq_true, if_false, pyAbs, hdiv, hmul]
      exact ⟨_, rfl⟩
  · exact absurd hm h1
  · exact absurd hm h2
  · have hd := divSteps_stay PyFloat.nan 0 rfl (pyFuel PyFloat.nan)
    have hmu := mulSteps_stay PyFloat.nan 0 rfl (pyFuel PyFloat.nan)
    simp only [pyEq0, Bool.false_eq_true, if_false, pyAbs, hd, hmu]
    exact ⟨_, rfl⟩

/-- C3 counterexample: on the float value `inf` (e.g. from the input
string `"inf"`) the first normalisation loop never exits — no
iteration budget makes `fmt_exp_field` return. -/
theorem fmt_exp_field_diverges_inf : fmtDiverges (.pNum .inf) 10 := by
  intro n
  unfold fmt_exp_fieldFuel
  have hm : toMant (PyVal.pNum PyFloat.inf) = PyFloat.inf := rfl
  simp only [hm, pyEq0, Bool.false_eq_true, if_false, pyAbs, divSteps_inf]

/-- C3 (amended): the formatter terminates and raises no error on every
input value except those whose float conversion yields `±inf` — all
`None`, blank, non-numeric, `nan` and finite inputs are covered. -/
theorem fmt_exp_field_total (val : PyVal) (w : ℤ)
    (h1 : toMant val ≠ PyFloat.inf) (h2 : toMant val ≠ PyFloat.ninf) :
    ∃ r, fmt_exp_field val w = some r :=
  fmt_terminates val w h1 h2

/-- Witness for C3 (amended) at the non-numeric string `"abc"`. -/
theorem fmt_exp_field_total_witness : ∃ r, fmt_exp_field (.pStr "abc") 10 = some r :=
  fmt_exp_field_total (.pStr "abc") 10 (by with_unfolding_all decide)
    (by with_unfolding_all decide)

theorem pySetItem_nat (buf : List Char) (p : ℕ) (c : Char) (h : p < buf.length) :
    pySetItem buf (p : ℤ) c = some (buf.set p c) := by
  have h0 : ¬ ((p : ℤ) < 0) := by omega
  simp only [pySetItem, h0, if_false]
  rw [if_pos ⟨by omega, by exact_mod_cast h⟩]
  simp

theorem writeChars_splice : ∀ (cs buf : List Char) (p : ℕ),
    p + cs.length ≤ buf.length →
    writeChars buf (p : ℤ) cs = some (buf.take p ++ cs ++ buf.drop (p + cs.length)) := by
  intro cs
  induction cs with
  | nil =>
    intro buf p _
    simp [writeChars]
  | cons c cs ih =>
    intro buf p hlen
    have hp : p < buf.length := by simp at hlen; omega
    have hset := pySetItem_nat buf p c hp
    show (match pySetItem buf (p : ℤ) c with
      | none => none
      | some b2 => writeChars b2 ((p : ℤ) + 1) cs) = _
    rw [hset]
    have hcast : ((p : ℤ) + 1) = ((p + 1 : ℕ) : ℤ) := by push_cast; ring
    show writeChars (buf.set p c) ((p : ℤ) + 1) cs = _
    rw [hcast, ih (buf.set p c) (p + 1) (by simp; simp at hlen; omega)]
    have hsplice := List.set_eq_take_cons_drop c hp
    have htk : (buf.take p).length = p := by
      rw [List.length_take]; omega
    have hTake : (buf.set p c).take (p + 1) = buf.take p ++ [c] := by
      rw [hsplice, List.take_append_eq_append_take, htk,
        List.take_of_length_le (by omega)]
      congr 1
      rw [show p + 1 - p = 1 by omega]
      simp
    have hDrop : (buf.set p c).drop (p + 1 + cs.length) =
        buf.drop (p + 1 + cs.length) := by
      rw [hsplice, List.drop_append_eq_append_drop, htk,
        List.drop_eq_nil_of_le (by omega), List.nil_append]
      rw [show p + 1 + cs.length - p = cs.length + 1 by omega]
      rw [List.drop_succ_cons, List.drop_drop]
    rw [hTake, hDrop]
    simp only [List.append_assoc, List.singleton_append, List.cons_append,
      List.length_cons, List.nil_append]
    rw [show p + 1 + cs.length = p + (cs.length + 1) by omega]

theorem rjust_trunc_data (text : String) (w : ℕ) (hw : 1 ≤ w) :
    (pyRjust (if (w : ℤ) < (text.data.length : ℤ) then pySliceTo text w else text)
        w).data =
      List.replicate (w - text.data.length) ' ' ++ text.data.take w := by
  by_cases hlt : (w : ℤ) < (text.data.length : ℤ)
  · rw [if_pos hlt]
    have hto : pySliceTo text (w : ℤ) = ⟨text.data.take w⟩ := by
      unfold pySliceTo
      rw [if_pos (by omega)]
      simp
    rw [hto]
    unfold pyRjust
    rw [if_neg (by simp only [data_mk, List.length_take]; omega)]
    have : w - text.data.length = 0 := by omega
    rw [data_mk, this, List.replicate_zero, List.nil_append]
  · rw [if_neg hlt]
    unfold pyRjust
    by_cases heq : text.data.length < w
    · rw [if_pos (by exact_mod_cast heq)]
      rw [data_mk, List.take_of_length_le (by omega)]
      congr 1
      congr 1
      omega
    · rw [if_neg (by omega)]
      have h1 : w - text.data.length = 0 := by omega
      rw [h1, List.replicate_zero, List.nil_append,
        List.take_of_length_le (by omega)]

/-- `place_into_line` on an in-range span: success, and the result is
the buffer with positions `s..e` (1-based) replaced by the truncated,
right-justified text. -/
theorem place_splice (buf : List Char) (s e : ℕ) (text : String)
    (h1 : 1 ≤ s) (h2 : s ≤ e) (h3 : e ≤ buf.length) :
    place_into_line buf ((s : ℤ), (e : ℤ)) text =
      some (buf.take (s - 1) ++
        (List.replicate ((e + 1 - s) - text.data.length) ' ' ++
          text.data.take (e + 1 - s)) ++
        buf.drop e) := by
  unfold place_into_line
  have hw : (e : ℤ) - (s : ℤ) + 1 = ((e + 1 - s : ℕ) : ℤ) := by omega
  have hw1 : 1 ≤ e + 1 - s := by omega
  rw [hw]
  rw [show ((s : ℤ) - 1) = ((s - 1 : ℕ) : ℤ) by omega]
  set M := (pyRjust (if ((e + 1 - s : ℕ) : ℤ) < (text.data.length : ℤ) then
    pySliceTo text ((e + 1 - s : ℕ) : ℤ) else text) ((e + 1 - s : ℕ) : ℤ)) with hM
  have hMdata : M.data =
      List.replicate ((e + 1 - s) - text.data.length) ' ' ++ text.data.take (e + 1 - s) :=
    rjust_trunc_data text (e + 1 - s) hw1
  have hMlen : M.data.length = e + 1 - s := by
    rw [hMdata]
    simp only [List.length_append, List.length_replicate, List.length_take]
    omega
  rw [writeChars_splice M.data buf (s - 1) (by rw [hMlen]; omega)]
  have hidx : s - 1 + M.data.length = e := by rw [hMlen]; omega
  rw [hidx, hMdata]

/-- C6: placing text into an in-range 1-based span `(s, e)` of a buffer
succeeds, keeps the buffer length, leaves every position outside
`[s, e]` unchanged, and puts the text truncated to its first
`e - s + 1` characters and right-justified into that width at
positions `s..e`. -/
theorem place_into_line_frame (buf : List Char) (s e : ℕ) (text : String)
    (h1 : 1 ≤ s) (h2 : s ≤ e) (h3 : e ≤ buf.length) :
    ∃ b2, place_into_line buf ((s : ℤ), (e : ℤ)) text = some b2 ∧
      b2.length = buf.length ∧
      b2.take (s - 1) = buf.take (s - 1) ∧
      b2.drop e = buf.drop e ∧
      (b2.drop (s - 1)).take (e + 1 - s) =
        List.replicate ((e + 1 - s) - text.data.length) ' ' ++
          text.data.take (e + 1 - s) := by
  set M := List.replicate ((e + 1 - s) - text.data.length) ' ' ++
    text.data.take (e + 1 - s) with hMdef
  have hMlen : M.length = e + 1 - s := by
    rw [hMdef]
    simp only [List.length_append, List.length_replicate, List.length_take]
    omega
  set A := buf.take (s - 1) with hAdef
  have hA : A.length = s - 1 := by
    rw [hAdef, List.length_take]
    omega
  refine ⟨A ++ M ++ buf.drop e, place_splice buf s e text h1 h2 h3, ?_, ?_, ?_, ?_⟩
  · simp only [List.length_append, List.length_drop, hA, hMlen]
    omega
  · rw [List.append_assoc, List.take_append_eq_append_take, hA,
      List.take_of_length_le (by omega), Nat.sub_self, List.take_zero,
      List.append_nil]
  · rw [List.append_assoc, List.drop_append_eq_append_drop, hA,
      List.drop_eq_nil_of_le (by omega), List.nil_append,
      List.drop_append_eq_append_drop, hMlen,
      List.drop_eq_nil_of_le (by omega), List.nil_append, List.drop_drop]
    congr 1
    omega
  · rw [List.append_assoc, List.drop_append_eq_append_drop, hA,
      List.drop_eq_nil_of_le (by omega), List.nil_append, Nat.sub_self,
      List.drop_zero, List.take_append_eq_append_take, hMlen,
      List.take_of_length_le (by omega), Nat.sub_self, List.take_zero,
      List.append_nil]

/-- Witness for C6: span `(3,5)` on the 8-character buffer `abcdefgh`
with text `xy`. -/
theorem place_into_line_frame_witness :
    ∃ b2, place_into_line ("abcdefgh" : String).data (((3 : ℕ) : ℤ), ((5 : ℕ) : ℤ)) "xy" =
        some b2 ∧
      b2.length = ("abcdefgh" : String).data.length ∧
      b2.take (3 - 1) = ("abcdefgh" : String).data.take (3 - 1) ∧
      b2.drop 5 = ("abcdefgh" : String).data.drop 5 ∧
      (b2.drop (3 - 1)).take (5 + 1 - 3) =
        List.replicate ((5 + 1 - 3) - ("xy" : String).data.length) ' ' ++
          ("xy" : String).data.take (5 + 1 - 3) :=
  place_into_line_frame ("abcdefgh" : String).data 3 5 "xy" (by norm_num) (by norm_num)
    (by decide)

theorem place_ok (buf : List Char) (sp : ℤ × ℤ) (text : String)
    (hs : 1 ≤ sp.1) (hse : sp.1 ≤ sp.2) (he : sp.2 ≤ (buf.length : ℤ)) :
    ∃ b2, place_into_line buf sp text = some b2 ∧ b2.length = buf.length := by
  obtain ⟨s, hs'⟩ : ∃ s : ℕ, sp.1 = (s : ℤ) := ⟨sp.1.toNat, by omega⟩
  obtain ⟨e, he'⟩ : ∃ e : ℕ, sp.2 = (e : ℤ) := ⟨sp.2.toNat, by omega⟩
  have hsp : sp = ((s : ℤ), (e : ℤ)) := by rw [← hs', ← he']
  rw [hsp]
  refine ⟨_, place_splice buf s e text (by omega) (by omega) (by omega), ?_⟩
  simp only [List.length_append, List.length_take, List.length_drop,
    List.length_replicate]
  omega

theorem fillSpans_ok : ∀ (spans : List (ℤ × ℤ)) (sensors : List (Option String))
    (buf : List Char) (i : ℕ),
    (∀ sp ∈ spans, 1 ≤ sp.1 ∧ sp.1 ≤ sp.2 ∧ sp.2 ≤ (buf.length : ℤ)) →
    (∀ v ∈ sensors, sensorOk v) → i ≤ sensors.length →
    ∃ b2, fillSpans sensors spans buf i =
        some (b2, min (i + spans.length) sensors.length) ∧
      b2.length = buf.length := by
  intro spans
  induction spans with
  | nil =>
    intro sensors buf i _ _ hi
    refine ⟨buf, ?_, rfl⟩
    simp only [fillSpans, List.length_nil, Nat.add_zero]
    rw [Nat.min_eq_left hi]
  | cons sp rest ih =>
    intro sensors buf i hspans hok hi
    by_cases hlt : i < sensors.length
    · have hvmem : sensors.getD i none ∈ sensors := by
        rw [List.getD_eq_getElem sensors none hlt]
        exact List.getElem_mem hlt
      have hvok := hok _ hvmem
      obtain ⟨txt, htxt⟩ := fmt_terminates (effPyVal (sensors.getD i none))
        (sp.2 - sp.1 + 1) hvok.1 hvok.2
      obtain ⟨hs1, hs2, hs3⟩ := hspans sp (List.mem_cons_self sp rest)
      obtain ⟨b2, hplace, hlen2⟩ := place_ok buf sp txt hs1 hs2 hs3
      obtain ⟨b3, hfill, hlen3⟩ := ih sensors b2 (i + 1)
        (fun sp2 hm => by rw [hlen2]; exact hspans sp2 (List.mem_cons_of_mem sp hm))
        hok (by omega)
      refine ⟨b3, ?_, by rw [hlen3, hlen2]⟩
      have harith : min (i + 1 + rest.length) sensors.length =
          min (i + (sp :: rest).length) sensors.length := by
        simp only [List.length_cons]
        omega
      simp only [fillSpans, hlt, if_true, htxt, hplace, hfill, harith]
    · have hieq : i = sensors.length := by omega
      refine ⟨buf, ?_, rfl⟩
      have harith : min (i + (sp :: rest).length) sensors.length = i := by
        simp only [List.length_cons]
        omega
      simp only [fillSpans, hlt, if_false, harith]

theorem totalSpans_nil : totalSpans [] = 0 := rfl

theorem totalSpans_cons (a : List (ℤ × ℤ)) (l : List (List (ℤ × ℤ))) :
    totalSpans (a :: l) = a.length + totalSpans l := by
  simp [totalSpans]

theorem schemaPhase_ok : ∀ (lines : List (List (ℤ × ℤ))) (L : ℕ) (d t c : String)
    (sensors : List (Option String)) (first : Bool) (i : ℕ),
    28 ≤ L →
    (∀ line ∈ lines, ∀ sp ∈ line, 1 ≤ sp.1 ∧ sp.1 ≤ sp.2 ∧ sp.2 ≤ (L : ℤ)) →
    (∀ v ∈ sensors, sensorOk v) → i ≤ sensors.length →
    ∃ ls, schemaPhase L d t c sensors lines first i =
      some (ls, min (i + totalSpans lines) sensors.length) := by
  intro lines
  induction lines with
  | nil =>
    intro L d t c sensors first i _ _ _ hi
    refine ⟨[], ?_⟩
    have harith : min (i + totalSpans []) sensors.length = i := by
      rw [totalSpans_nil]
      omega
    simp only [schemaPhase, harith]
  | cons spans rest ih =>
    intro L d t c sensors first i hL hspans hok hi
    have hrepl : (List.replicate L ' ').length = L := List.length_replicate L ' '
    have hspans1 : ∀ sp ∈ spans, 1 ≤ sp.1 ∧ sp.1 ≤ sp.2 ∧ sp.2 ≤ (L : ℤ) :=
      hspans spans (List.mem_cons_self spans rest)
    have hspansR : ∀ line ∈ rest, ∀ sp ∈ line, 1 ≤ sp.1 ∧ sp.1 ≤ sp.2 ∧ sp.2 ≤ (L : ℤ) :=
      fun line hm => hspans line (List.mem_cons_of_mem spans hm)
    by_cases hlt : i < sensors.length
    · have harith : min (min (i + spans.length) sensors.length + totalSpans rest)
          sensors.length = min (i + totalSpans (spans :: rest)) sensors.length := by
        rw [totalSpans_cons]
        omega
      cases first with
      | false =>
        obtain ⟨b2, hfill, hlb2⟩ := fillSpans_ok spans sensors (List.replicate L ' ') i
          (fun sp hm => by rw [hrepl]; exact hspans1 sp hm) hok (by omega)
        obtain ⟨ls, hrec⟩ := ih L d t c sensors false
          (min (i + spans.length) sensors.length) hL hspansR hok (by omega)
        refine ⟨rstrip (⟨b2⟩ : String) :: ls, ?_⟩
        simp only [schemaPhase, hlt, if_true, Bool.false_eq_true, if_false,
          Option.pure_def, Option.bind_eq_bind, Option.some_bind, hfill, hrec, harith]
      | true =>
        obtain ⟨a, ha, hla⟩ := place_ok (List.replicate L ' ') (7, 16) d
          (by norm_num) (by norm_num) (by rw [hrepl]; push_cast; omega)
        obtain ⟨b, hb, hlb⟩ := place_ok a (18, 25) t
          (by norm_num) (by norm_num) (by rw [hla, hrepl]; push_cast; omega)
        obtain ⟨cc, hc, hlc⟩ := place_ok b (28, 28) c
          (by norm_num) (by norm_num) (by rw [hlb, hla, hrepl]; push_cast; omega)
        obtain ⟨b2, hfill, hlb2⟩ := fillSpans_ok spans sensors cc i
          (fun sp hm => by rw [hlc, hlb, hla, hrepl]; exact hspans1 sp hm) hok (by omega)
        obtain ⟨ls, hrec⟩ := ih L d t c sensors false
          (min (i + spans.length) sensors.length) hL hspansR hok (by omega)
        refine ⟨rstrip (⟨b2⟩ : String) :: ls, ?_⟩
        simp only [schemaPhase, hlt, if_true, Option.pure_def, Option.bind_eq_bind,
          Option.some_bind, ha, hb, hc, hfill, hrec, harith]
    · have hieq : i = sensors.length := by omega
      refine ⟨[], ?_⟩
      have harith : min (i + totalSpans (spans :: rest)) sensors.length = i := by omega
      simp only [schemaPhase, hlt, if_false, harith]

theorem fallback_spans_ok (L : ℕ) (hL : 63 ≤ L) :
    ∀ sp ∈ fallback_spans, 1 ≤ sp.1 ∧ sp.1 ≤ sp.2 ∧ sp.2 ≤ (L : ℤ) := by
  intro sp hsp
  have hL' : (63 : ℤ) ≤ (L : ℤ) := by exact_mod_cast hL
  simp only [fallback_spans, List.mem_cons, List.not_mem_nil, or_false] at hsp
  rcases hsp with rfl | rfl | rfl | rfl | rfl | rfl <;>
    exact ⟨by norm_num, by norm_num, by omega⟩

theorem fallbackPhase_ok : ∀ (fuel : ℕ) (L : ℕ) (sensors : List (Option String)) (i : ℕ),
    63 ≤ L → (∀ v ∈ sensors, sensorOk v) → i ≤ sensors.length →
    sensors.length - i ≤ fuel →
    ∃ ls, fallbackPhase L sensors fuel i = some (ls, sensors.length) := by
  intro fuel
  induction fuel with
  | zero =>
    intro L sensors i hL hok hi hfuel
    have hieq : i = sensors.length := by omega
    refine ⟨[], ?_⟩
    simp only [fallbackPhase, hieq, lt_self_iff_false, if_false]
  | succ f ih =>
    intro L sensors i hL hok hi hfuel
    by_cases hlt : i < sensors.length
    · have hrepl : (List.replicate L ' ').length = L := List.length_replicate L ' '
      obtain ⟨b1, hfill, hlb1⟩ := fillSpans_ok fallback_spans sensors
        (List.replicate L ' ') i
        (fun sp hm => by rw [hrepl]; exact fallback_spans_ok L hL sp hm) hok (by omega)
      have hlen6 : fallback_spans.length = 6 := rfl
      obtain ⟨ls, hrec⟩ := ih L sensors (min (i + fallback_spans.length) sensors.length)
        hL hok (by omega) (by rw [hlen6]; omega)
      refine ⟨rstrip (⟨b1⟩ : String) :: ls, ?_⟩
      simp only [fallbackPhase, hlt, if_true, Option.pure_def, Option.bind_eq_bind,
        Option.some_bind, hfill, hrec]
    · have hieq : i = sensors.length := by omega
      subst hieq
      refine ⟨[], ?_⟩
      simp only [fallbackPhase, lt_self_iff_false, if_false]

theorem sensorsOf_length (r : Row) : (sensorsOf r).length = 22 := by
  simp [sensorsOf, SENSOR_COUNT]

/-- C2 (amended): for every row whose 22 sensor cells all have
terminating formatting (no `±inf`), and every layout whose schema spans
lie inside the line (`1 ≤ s ≤ e ≤ line_length`) with `line_length ≥ 63`
(so the stamp and fallback spans fit), the encoder consumes the schema
spans in order first (final schema-phase index
`min (total schema spans) 22`), then the fallback spans, and the final
sensor index is exactly 22: every sensor value is placed exactly once,
none dropped, none duplicated.  (Without the span restriction the
encoder can die with an `IndexError` instead — see the
counterexample.) -/
theorem encodeBody_places_all (lay : Layout) (r : Row) (d t c : String)
    (hL : 63 ≤ lay.lineLength)
    (hspans : ∀ line ∈ lay.lines, ∀ sp ∈ line,
      1 ≤ sp.1 ∧ sp.1 ≤ sp.2 ∧ sp.2 ≤ (lay.lineLength : ℤ))
    (hok : ∀ v ∈ sensorsOf r, sensorOk v) :
    ∃ ls1 ls2 i1,
      schemaPhase lay.lineLength d t c (sensorsOf r) lay.lines true 0 = some (ls1, i1) ∧
      i1 = min (totalSpans lay.lines) 22 ∧
      encodeBody lay d t c (sensorsOf r) = some (ls1 ++ ls2, 22) := by
  have hslen := sensorsOf_length r
  obtain ⟨ls1, hschema⟩ := schemaPhase_ok lay.lines lay.lineLength d t c (sensorsOf r)
    true 0 (by omega) hspans hok (by omega)
  have hi1 : min (0 + totalSpans lay.lines) (sensorsOf r).length =
      min (totalSpans lay.lines) 22 := by rw [hslen]; omega
  obtain ⟨ls2, hfb⟩ := fallbackPhase_ok (sensorsOf r).length lay.lineLength
    (sensorsOf r) (min (0 + totalSpans lay.lines) (sensorsOf r).length) hL hok
    (by omega) (by omega)
  rw [hslen] at hfb
  refine ⟨ls1, ls2, _, by rw [hschema], hi1, ?_⟩
  simp only [encodeBody, Option.pure_def, Option.bind_eq_bind, Option.some_bind,
    hslen, hschema, hfb]

/-- C2 counterexample: a schema span `(100, 105)` beyond the default
78-character line makes the very first placement raise `IndexError`,
so the record dies with no sensor placed at all — the claim does not
hold for arbitrary span lists. -/
theorem encodeBody_span_overflow :
    encodeBody layBad "d" "t" "c" (sensorsOf rowE) = none := by
  with_unfolding_all decide

/-- Witness for C2 (amended) at the one-line layout `lay1` and the
all-blank row `rowE`. -/
theorem encodeBody_places_all_witness :
    ∃ ls1 ls2 i1,
      schemaPhase lay1.lineLength "d" "t" "c" (sensorsOf rowE) lay1.lines true 0 =
        some (ls1, i1) ∧
      i1 = min (totalSpans lay1.lines) 22 ∧
      encodeBody lay1 "d" "t" "c" (sensorsOf rowE) = some (ls1 ++ ls2, 22) :=
  encodeBody_places_all lay1 rowE "d" "t" "c" (by decide)
    (by
      intro line hm sp hsp
      simp only [lay1, List.mem_singleton] at hm
      subst hm
      simp only [List.mem_singleton] at hsp
      subst hsp
      refine ⟨by norm_num, by norm_num, by decide⟩)
    (by
      intro v hv
      have : v = none := by
        simp only [sensorsOf, List.mem_map] at hv
        obtain ⟨_, _, h⟩ := hv
        exact h.symm
      rw [this]
      constructor <;> with_unfolding_all decide)

/-- C1 counterexample: on the end-to-end scenario row, the header is
`00123 000045    1 22 A` — the message index is right-justified with
spaces by `str(1).rjust(3)`, not zero-padded to `001` — and because the
schema has no lines, the date/time/compression stamp never happens:
columns 7–16 of the first continuation line hold sensor 1
(`3.14000E+0`), not the date token `2020-02-01`. -/
theorem encodeRow_scenario_cex :
    ((encodeRow lay0 1 rowC1).getD []).headD "" ≠ "00123 000045  001 22 A" ∧
    ((((encodeRow lay0 1 rowC1).getD []).getD 1 "").data.drop 6).take 10 ≠
      ("2020-02-01" : String).data := by
  constructor <;> with_unfolding_all decide

/-- C1 (amended): the end-to-end scenario row with the empty/default
schema produces the header `00123 000045    1 22 A` (index `1`
space-justified to 3 columns) followed by four fallback continuation
lines carrying sensors 1–6, 7–12, 13–18 and 19–22 at the fallback
spans: no date, time or compression stamp appears, since the stamp is
emitted only on the first schema-driven line and this schema has
none. -/
theorem encodeRow_scenario :
    encodeRow lay0 1 rowC1 = some
      ["00123 000045    1 22 A",
       "      3.14000E+0 00000E+0  .00000E+0.00000E+0.00000E+0.00000E+0",
       "       .00000E+0 00000E+0  .00000E+0.00000E+0.00000E+0.00000E+0",
       "       .00000E+0 00000E+0  .00000E+0.00000E+0.00000E+0.00000E+0",
       "       .00000E+0 00000E+0  .00000E+0.00000E+0"] := by
  with_unfolding_all decide

theorem msgIndicesGo_spec : ∀ (rows : List Row) (g : String × String → ℕ) (i : ℕ),
    i < rows.length →
    (msgIndicesGo g rows).getD i 0 =
      g (rowKey (rows.getD i rowE)) +
      ((rows.take (i + 1)).filter
        (fun x => decide (rowKey x = rowKey (rows.getD i rowE)))).length := by
  intro rows
  induction rows with
  | nil => intro g i h; simp at h
  | cons r rs ih =>
    intro g i h
    cases i with
    | zero =>
      show (msgIndicesGo g (r :: rs)).getD 0 0 = _
      rw [List.getD_cons_zero, List.take_succ_cons, List.take_zero, List.filter_cons]
      show g (rowKey r) + 1 = _
      rw [if_pos (by simp)]
      simp
    | succ i =>
      have hlen : i < rs.length := by simp at h; omega
      show (msgIndicesGo (fun k2 => if k2 = rowKey r then g (rowKey r) + 1 else g k2)
        rs).getD i 0 = _
      rw [ih _ i hlen, List.getD_cons_succ, List.take_succ_cons, List.filter_cons]
      by_cases heq : rowKey (rs.getD i rowE) = rowKey r
      · rw [if_pos heq, if_pos (by rw [decide_eq_true_eq]; exact heq.symm)]
        rw [List.length_cons, heq]
        omega
      · rw [if_neg heq, if_neg (by rw [decide_eq_true_eq]; exact fun hc => heq hc.symm)]

/-- C7: during one conversion run, the message index assigned to each
row equals the number of rows up to and including it that share its
`(Program.strip(), PTT.strip())` key — so rows with the same key get
1, 2, 3, … in input order and each new key starts at 1 (the counter
starts every key at the `defaultdict` value 0 and increments once per
row). -/
theorem msgIndices_spec (rows : List Row) (i : ℕ) (h : i < rows.length) :
    (msgIndices rows).getD i 0 =
      ((rows.take (i + 1)).filter
        (fun x => decide (rowKey x = rowKey (rows.getD i rowE)))).length := by
  have hgo := msgIndicesGo_spec rows (fun _ => 0) i h
  simpa using hgo

/-- Witness for C7 on a three-row run whose first and third rows share
a key: the third row gets index 2. -/
theorem msgIndices_spec_witness :
    (msgIndices [rowC1, rowE, rowC1]).getD 2 0 =
      (([rowC1, rowE, rowC1].take (2 + 1)).filter
        (fun x => decide (rowKey x = rowKey ([rowC1, rowE, rowC1].getD 2 rowE)))).length :=
  msgIndices_spec [rowC1, rowE, rowC1] 2 (by norm_num)

/-- C8: any timestamp that does not split on whitespace into exactly a
date part and a time part — in particular the empty string — is encoded
with the literal fallback tokens `0000-00-00` and `00:00:00`; no error
is raised and the run continues (second conjunct: the all-blank row
with empty `Message date` still encodes to a full record, whose first
schema line carries exactly those fallback tokens at columns 7–16 and
18–25). -/
theorem parseTimestamp_fallback :
    (∀ s : String, (pySplitWs s).length ≠ 2 →
      parseTimestamp s = ("0000-00-00", "00:00:00")) ∧
    encodeRow lay1 1 rowE = some
      ["00000 000000    1 22  ",
       "      0000-00-00 00:00:00  1  .00000E+0",
       "       .00000E+0 00000E+0  .00000E+0.00000E+0.00000E+0.00000E+0",
       "       .00000E+0 00000E+0  .00000E+0.00000E+0.00000E+0.00000E+0",
       "       .00000E+0 00000E+0  .00000E+0.00000E+0.00000E+0.00000E+0",
       "       .00000E+0 00000E+0  .00000E+0"] := by
  constructor
  · intro s h
    unfold parseTimestamp
    by_cases hs : s = ""
    · rw [if_pos hs]
    · rw [if_neg hs]
      rcases hsp : pySplitWs s with _ | ⟨a, _ | ⟨b, _ | ⟨c3, tl⟩⟩⟩
      · rfl
      · rfl
      · exact absurd (by rw [hsp]; rfl) h
      · rfl
  · with_unfolding_all decide

/-- Witness for C8 at the empty timestamp. -/
theorem parseTimestamp_fallback_witness :
    parseTimestamp "" = ("0000-00-00", "00:00:00") :=
  parseTimestamp_fallback.1 "" (by with_unfolding_all decide)

theorem pyZfill_length (s : String) (w : ℕ) :
    (pyZfill s w).data.length = max w s.data.length := by
  unfold pyZfill
  by_cases hle : w ≤ s.data.length
  · rw [if_pos hle]
    omega
  · rw [if_neg hle]
    rcases hdata : s.data with _ | ⟨c, rest⟩
    · simp only [hdata, data_mk, List.length_replicate, List.length_nil]
      omega
    · have hsl : s.data.length = rest.length + 1 := by rw [hdata]; simp
      simp only [hdata]
      by_cases hsign : c = '+' ∨ c = '-'
      · rw [if_pos hsign]
        simp only [data_mk, List.length_cons, List.length_append, List.length_replicate]
        omega
      · rw [if_neg hsign]
        simp only [data_mk, List.length_append, List.length_replicate, List.length_cons]
        omega

theorem pyLjust_length (s : String) (w : ℕ) :
    (pyLjust s w).data.length = max w s.data.length := by
  unfold pyLjust
  split
  · simp only [data_mk, List.length_append, List.length_replicate]
    omega
  · next h => omega

theorem pyZfill_of_le (s : String) (w : ℕ) (h : w ≤ s.data.length) : pyZfill s w = s := by
  unfold pyZfill
  rw [if_pos h]

theorem pyLjust_of_le (s : String) (w : ℕ) (h : w ≤ s.data.length) : pyLjust s w = s := by
  unfold pyLjust
  rw [if_neg (by omega)]

/-- C10: the header identity fields are padded, never truncated — a
Program longer than 5 characters, a PTT longer than 6, or a stripped
Satellite longer than 1 is emitted in full, and the header length is
the sum of the `max`-padded field widths plus the 7 fixed characters
(separators and the `22` sensor count), so an oversized field shifts
every later column; the fixed 22-character template holds exactly when
every field fits its nominal width. -/
theorem headerLine_no_trunc (r : Row) (idx : ℕ) :
    (5 < r.program.data.length → pyZfill r.program 5 = r.program) ∧
    (6 < r.ptt.data.length → pyZfill r.ptt 6 = r.ptt) ∧
    (1 < (pyStrip r.satellite).data.length →
      pyLjust (pyStrip r.satellite) 1 = pyStrip r.satellite) ∧
    (headerLine r idx).data.length =
      max 5 r.program.data.length + max 6 r.ptt.data.length +
      max 3 (Nat.repr idx).data.length + max 1 (pyStrip r.satellite).data.length + 7 := by
  refine ⟨fun h => pyZfill_of_le _ _ (by omega),
    fun h => pyZfill_of_le _ _ (by omega),
    fun h => pyLjust_of_le _ _ (by omega), ?_⟩
  unfold headerLine
  have hsep1 : (" " : String).data.length = 1 := rfl
  have hsep2 : ("  " : String).data.length = 2 := rfl
  have hcnt : (pyRjust (Nat.repr SENSOR_COUNT) 2).data.length = 2 := by decide
  have hidx : (pyRjust (Nat.repr idx) 3).data.length = max 3 (Nat.repr idx).data.length := by
    rw [pyRjust_length]
    omega
  simp only [String.data_append, List.length_append, pyZfill_length, pyLjust_length,
    hsep1, hsep2, hcnt, hidx]
  omega

/-- Witness for C10 at a row with a 6-character Program. -/
theorem headerLine_no_trunc_witness :
    pyZfill "123456" 5 = "123456" ∧
    (headerLine ⟨"123456", "45", "A", "", none, fun _ => none⟩ 7).data.length =
      max 5 ("123456" : String).data.length + max 6 ("45" : String).data.length +
      max 3 (Nat.repr 7).data.length + max 1 (pyStrip "A").data.length + 7 :=
  ⟨(headerLine_no_trunc ⟨"123456", "45", "A", "", none, fun _ => none⟩ 7).1 (by decide),
   (headerLine_no_trunc ⟨"123456", "45", "A", "", none, fun _ => none⟩ 7).2.2.2⟩

theorem digit_not_ws (c : Char) (h : c.isDigit = true) : pyWs c = false := by
  have h1 : c ≠ ' ' := fun he => by subst he; exact absurd h (by decide)
  have h2 : c ≠ '\t' := fun he => by subst he; exact absurd h (by decide)
  have h3 : c ≠ '\r' := fun he => by subst he; exact absurd h (by decide)
  have h4 : c ≠ '\n' := fun he => by subst he; exact absurd h (by decide)
  simp [pyWs, Char.isWhitespace, h1, h2, h3, h4]

theorem wsTokensGo_ne_nil : ∀ (l cur : List Char), cur ≠ [] → wsTokensGo cur l ≠ [] := by
  intro l
  induction l with
  | nil =>
    intro cur h
    simp [wsTokensGo, h]
  | cons c cs ih =>
    intro cur h
    by_cases hws : pyWs c = true
    · simp only [wsTokensGo, hws, if_true, h, if_false]
      exact List.cons_ne_nil _ _
    · rw [Bool.not_eq_true] at hws
      simp only [wsTokensGo, hws, Bool.false_eq_true, if_false]
      exact ih (c :: cur) (List.cons_ne_nil c cur)

theorem wsTokensGo_head : ∀ (l cur : List Char), cur ≠ [] →
    (wsTokensGo cur l).headD [] =
      cur.reverse ++ l.takeWhile (fun c => !pyWs c) := by
  intro l
  induction l with
  | nil =>
    intro cur h
    simp [wsTokensGo, h]
  | cons c cs ih =>
    intro cur h
    by_cases hws : pyWs c = true
    · simp only [wsTokensGo, hws, if_true, h, if_false, List.headD_cons,
        List.takeWhile_cons, Bool.not_true, Bool.false_eq_true, List.append_nil]
    · rw [Bool.not_eq_true] at hws
      simp only [wsTokensGo, hws, Bool.false_eq_true, if_false, List.takeWhile_cons,
        Bool.not_false, if_true, ih (c :: cur) (List.cons_ne_nil c cur),
        List.reverse_cons, List.append_assoc, List.cons_append, List.nil_append]

theorem pySplitWs_head (l : String) (c : Char) (cs : List Char)
    (hdata : l.data = c :: cs) (hws : pyWs c = false) :
    (pySplitWs l).headD "" = (⟨firstWsTok l⟩ : String) := by
  unfold pySplitWs
  rw [hdata]
  have hstep : wsTokensGo [] (c :: cs) = wsTokensGo [c] cs := by
    simp [wsTokensGo, hws]
  rw [hstep]
  have hne := wsTokensGo_ne_nil cs [c] (List.cons_ne_nil c [])
  obtain ⟨x, t, hxt⟩ := List.exists_cons_of_ne_nil hne
  have hhead := wsTokensGo_head cs [c] (List.cons_ne_nil c [])
  rw [hxt] at hhead ⊢
  simp only [List.headD_cons] at hhead
  simp only [List.map_cons, List.headD_cons, hhead]
  unfold firstWsTok
  rw [hdata]
  simp [List.dropWhile_cons, List.takeWhile_cons, hws]

theorem isHeaderLine_iff (l : String) :
    isHeaderLine l = true ↔
      (l.data ≠ [] ∧ (l.data.headD ' ').isDigit = true ∧
        l.data.contains ' ' = true ∧ specHeaderCond l) := by
  by_cases h0 : l.data = []
  · have hL : isHeaderLine l = false := by
      unfold isHeaderLine
      rw [if_pos h0]
    simp [hL, h0]
  · by_cases h1 : (l.data.headD ' ').isDigit = true
    · by_cases h2 : l.data.contains ' ' = true
      · obtain ⟨c, cs, hdata⟩ := List.exists_cons_of_ne_nil h0
        have hc : l.data.headD ' ' = c := by rw [hdata]; rfl
        have hcw : pyWs c = false := digit_not_ws c (hc ▸ h1)
        have hL : isHeaderLine l =
            ((decide ((⟨firstWsTok l⟩ : String) ≠ "") && (firstWsTok l).all Char.isDigit)
              && decide (5 ≤ (firstWsTok l).length)) := by
          unfold isHeaderLine
          rw [if_neg h0, h1, h2]
          simp only [Bool.not_true, Bool.false_eq_true, if_false]
          rw [pySplitWs_head l c cs hdata hcw]
        rw [hL]
        simp only [Bool.and_eq_true, decide_eq_true_eq, specHeaderCond]
        constructor
        · rintro ⟨⟨hne, hall⟩, hlen⟩
          exact ⟨h0, h1, h2, fun hnil => hne (by rw [hnil]), hall, hlen⟩
        · rintro ⟨_, _, _, hne, hall, hlen⟩
          refine ⟨⟨fun he => hne ?_, hall⟩, hlen⟩
          have hd := congrArg String.data he
          simpa using hd
      · have hL : isHeaderLine l = false := by
          unfold isHeaderLine
          rw [if_neg h0, h1]
          simp only [Bool.not_true, Bool.false_eq_true, if_false]
          rw [Bool.not_eq_true] at h2
          rw [h2]
          simp
        rw [hL]
        constructor
        · intro hf
          exact absurd hf (by simp)
        · rintro ⟨_, _, hcontra, _⟩
          exact absurd hcontra h2
    · have hL : isHeaderLine l = false := by
        unfold isHeaderLine
        rw [if_neg h0]
        rw [Bool.not_eq_true] at h1
        rw [h1]
        simp
      rw [hL]
      constructor
      · intro hf
        exact absurd hf (by simp)
      · rintro ⟨_, hcontra, _⟩
        exact absurd hcontra h1

theorem parseGo_join : ∀ (rest cur : List String),
    (parseRecordsGo cur rest).flatten = cur ++ rest.filter (fun l => decide (l ≠ "")) := by
  intro rest
  induction rest with
  | nil =>
    intro cur
    by_cases h : cur = []
    · subst h
      simp [parseRecordsGo]
    · simp [parseRecordsGo, h]
  | cons l rest ih =>
    intro cur
    by_cases hl : l = ""
    · subst hl
      rw [show parseRecordsGo cur ("" :: rest) = parseRecordsGo cur rest from by
        simp [parseRecordsGo]]
      rw [ih cur, List.filter_cons, if_neg (by simp)]
    · have hfil : List.filter (fun x => decide (x ≠ "")) (l :: rest) =
          l :: List.filter (fun x => decide (x ≠ "")) rest := by
        rw [List.filter_cons, if_pos (by simp [hl])]
      by_cases hh : isHeaderLine l = true
      · by_cases hc : cur = []
        · rw [show parseRecordsGo cur (l :: rest) = parseRecordsGo [l] rest from by
            simp [parseRecordsGo, hl, hh, hc]]
          rw [ih [l], hfil, hc]
          simp
        · rw [show parseRecordsGo cur (l :: rest) = cur :: parseRecordsGo [l] rest from by
            simp [parseRecordsGo, hl, hh, hc]]
          rw [List.flatten_cons, ih [l], hfil]
          simp
      · rw [show parseRecordsGo cur (l :: rest) = parseRecordsGo (cur ++ [l]) rest from by
          simp [parseRecordsGo, hl, hh]]
        rw [ih (cur ++ [l]), hfil]
        simp

theorem parseGo_ne_nil : ∀ (rest cur : List String),
    ∀ rec ∈ parseRecordsGo cur rest, rec ≠ [] := by
  intro rest
  induction rest with
  | nil =>
    intro cur rec hrec
    by_cases h : cur = []
    · simp [parseRecordsGo, h] at hrec
    · simp only [parseRecordsGo, h, if_false, List.mem_singleton] at hrec
      subst hrec
      exact h
  | cons l rest ih =>
    intro cur rec hrec
    by_cases hl : l = ""
    · subst hl
      rw [show parseRecordsGo cur ("" :: rest) = parseRecordsGo cur rest from by
        simp [parseRecordsGo]] at hrec
      exact ih cur rec hrec
    · rw [show parseRecordsGo cur (l :: rest) =
        (if isHeaderLine l = true then
          (if cur = [] then parseRecordsGo [l] rest
            else cur :: parseRecordsGo [l] rest)
          else parseRecordsGo (cur ++ [l]) rest) from by
        simp [parseRecordsGo, hl]] at hrec
      by_cases hh : isHeaderLine l = true
      · rw [if_pos hh] at hrec
        by_cases hc : cur = []
        · rw [if_pos hc] at hrec
          exact ih [l] rec hrec
        · rw [if_neg hc] at hrec
          rcases List.mem_cons.mp hrec with rfl | hmem
          · exact hc
          · exact ih [l] rec hmem
      · rw [if_neg hh] at hrec
        exact ih (cur ++ [l]) rec hrec

theorem parseGo_tail_nonheader : ∀ (rest cur : List String),
    (∀ l2 ∈ cur.drop 1, isHeaderLine l2 = false) →
    ∀ rec ∈ parseRecordsGo cur rest, ∀ l2 ∈ rec.drop 1, isHeaderLine l2 = false := by
  intro rest
  induction rest with
  | nil =>
    intro cur hcur rec hrec
    by_cases h : cur = []
    · simp [parseRecordsGo, h] at hrec
    · simp only [parseRecordsGo, h, if_false, List.mem_singleton] at hrec
      subst hrec
      exact hcur
  | cons l rest ih =>
    intro cur hcur rec hrec
    by_cases hl : l = ""
    · subst hl
      rw [show parseRecordsGo cur ("" :: rest) = parseRecordsGo cur rest from by
        simp [parseRecordsGo]] at hrec
      exact ih cur hcur rec hrec
    · rw [show parseRecordsGo cur (l :: rest) =
        (if isHeaderLine l = true then
          (if cur = [] then parseRecordsGo [l] rest
            else cur :: parseRecordsGo [l] rest)
          else parseRecordsGo (cur ++ [l]) rest) from by
        simp [parseRecordsGo, hl]] at hrec
      by_cases hh : isHeaderLine l = true
      · rw [if_pos hh] at hrec
        have hseed : ∀ l2 ∈ ([l] : List String).drop 1, isHeaderLine l2 = false := by
          intro l2 hmem
          simp at hmem
        by_cases hc : cur = []
        · rw [if_pos hc] at hrec
          exact ih [l] hseed rec hrec
        · rw [if_neg hc] at hrec
          rcases List.mem_cons.mp hrec with rfl | hmem
          · exact hcur
          · exact ih [l] hseed rec hmem
      · rw [if_neg hh] at hrec
        refine ih (cur ++ [l]) ?_ rec hrec
        intro l2 hmem
        rcases cur with _ | ⟨c0, ct⟩
        · simp at hmem
        · simp only [List.cons_append, List.drop_succ_cons, List.drop_zero] at hmem
          rcases List.mem_append.mp hmem with hmem2 | hmem2
          · exact hcur l2 (by simpa using hmem2)
          · rw [Bool.not_eq_true] at hh
            simp only [List.mem_singleton] at hmem2
            subst hmem2
            exact hh

theorem parseGo_headers_all : ∀ (rest cur : List String), cur ≠ [] →
    isHeaderLine (cur.headD "") = true →
    ∀ rec ∈ parseRecordsGo cur rest, isHeaderLine (rec.headD "") = true := by
  intro rest
  induction rest with
  | nil =>
    intro cur hcne hch rec hrec
    simp only [parseRecordsGo, hcne, if_false, List.mem_singleton] at hrec
    subst hrec
    exact hch
  | cons l rest ih =>
    intro cur hcne hch rec hrec
    by_cases hl : l = ""
    · subst hl
      rw [show parseRecordsGo cur ("" :: rest) = parseRecordsGo cur rest from by
        simp [parseRecordsGo]] at hrec
      exact ih cur hcne hch rec hrec
    · by_cases hh : isHeaderLine l = true
      · rw [show parseRecordsGo cur (l :: rest) = cur :: parseRecordsGo [l] rest from by
          simp [parseRecordsGo, hl, hh, hcne]] at hrec
        rcases List.mem_cons.mp hrec with rfl | hmem
        · exact hch
        · exact ih [l] (List.cons_ne_nil l []) (by simpa using hh) rec hmem
      · rw [show parseRecordsGo cur (l :: rest) = parseRecordsGo (cur ++ [l]) rest from by
          simp [parseRecordsGo, hl, hh]] at hrec
        refine ih (cur ++ [l]) (by simp) ?_ rec hrec
        obtain ⟨c0, ct, hc⟩ := List.exists_cons_of_ne_nil hcne
        rw [hc, List.cons_append, List.headD_cons]
        rw [hc, List.headD_cons] at hch
        exact hch

theorem parseGo_drop1_headers : ∀ (rest cur : List String),
    ∀ rec ∈ (parseRecordsGo cur rest).drop 1, isHeaderLine (rec.headD "") = true := by
  intro rest
  induction rest with
  | nil =>
    intro cur rec hrec
    by_cases h : cur = []
    · simp [parseRecordsGo, h] at hrec
    · simp [parseRecordsGo, h] at hrec
  | cons l rest ih =>
    intro cur rec hrec
    by_cases hl : l = ""
    · subst hl
      rw [show parseRecordsGo cur ("" :: rest) = parseRecordsGo cur rest from by
        simp [parseRecordsGo]] at hrec
      exact ih cur rec hrec
    · by_cases hh : isHeaderLine l = true
      · by_cases hc : cur = []
        · rw [show parseRecordsGo cur (l :: rest) = parseRecordsGo [l] rest from by
            simp [parseRecordsGo, hl, hh, hc]] at hrec
          exact parseGo_headers_all rest [l] (List.cons_ne_nil l [])
            (by simpa using hh) rec (List.mem_of_mem_drop hrec)
        · rw [show parseRecordsGo cur (l :: rest) = cur :: parseRecordsGo [l] rest from by
            simp [parseRecordsGo, hl, hh, hc]] at hrec
          rw [List.drop_succ_cons, List.drop_zero] at hrec
          exact parseGo_headers_all rest [l] (List.cons_ne_nil l [])
            (by simpa using hh) rec hrec
      · rw [show parseRecordsGo cur (l :: rest) = parseRecordsGo (cur ++ [l]) rest from by
          simp [parseRecordsGo, hl, hh]] at hrec
        exact ih (cur ++ [l]) rec hrec

/-- C9 (amended): a line is classified as a record header iff it is
nonempty, its first character is a digit, it contains a space
character, and its first whitespace-delimited token is all digits with
length at least 5 (the claimed first-token condition alone is not
sufficient — see the counterexample); and the grouping is as claimed:
no nonblank line is lost or duplicated (the concatenation of the
records is the nonblank lines in order), every record is nonempty, a
header only ever stands first in its record, and every record after
the first opens with a header line. -/
theorem parse_records_grouping :
    (∀ l : String, isHeaderLine l = true ↔
      (l.data ≠ [] ∧ (l.data.headD ' ').isDigit = true ∧
        l.data.contains ' ' = true ∧ specHeaderCond l)) ∧
    (∀ ls : List String,
      (parse_records ls).flatten = ls.filter (fun l => decide (l ≠ "")) ∧
      (∀ rec ∈ parse_records ls, rec ≠ [] ∧
        ∀ l2 ∈ rec.drop 1, isHeaderLine l2 = false) ∧
      (∀ rec ∈ (parse_records ls).drop 1, isHeaderLine (rec.headD "") = true)) := by
  refine ⟨isHeaderLine_iff, fun ls => ⟨parseGo_join ls [], fun rec hrec => ?_, ?_⟩⟩
  · exact ⟨parseGo_ne_nil ls [] rec hrec,
      parseGo_tail_nonheader ls [] (by simp) rec hrec⟩
  · exact parseGo_drop1_headers ls []

/-- Witness for C9 (amended) on a concrete four-line file. -/
theorem parse_records_grouping_witness :
    (parse_records ["12345 A", "cont", "", "67890 B"]).flatten =
      (["12345 A", "cont", "", "67890 B"].filter (fun l => decide (l ≠ ""))) ∧
    (isHeaderLine "12345 A" = true ↔
      (("12345 A" : String).data ≠ [] ∧
        (("12345 A" : String).data.headD ' ').isDigit = true ∧
        ("12345 A" : String).data.contains ' ' = true ∧ specHeaderCond "12345 A")) :=
  ⟨(parse_records_grouping.2 ["12345 A", "cont", "", "67890 B"]).1,
   parse_records_grouping.1 "12345 A"⟩

/-- C9 counterexample: the line `12345` has an all-digit first
whitespace-delimited token of length 5, so the claimed criterion calls
it a header, but the code also demands a space character in the line
(`' ' in line`) and classifies it as a non-header. -/
theorem isHeaderLine_cex :
    isHeaderLine "12345" = false ∧ specHeaderCond "12345" := by
  constructor
  · decide
  · unfold specHeaderCond firstWsTok
    refine ⟨by decide, by decide, by decide⟩
